import Mathlib

/-!
Verification of the conversation state manager and streaming response parser
of `assistant.py` (an interactive CLI client for a streaming chat-completion
API), via a shallow embedding of the relevant code in Lean.

Part 1: the data model (`Message`, `Conversation`) and the context-selection
policy (`Conversation.to_request`, `Conversation.add_message`).
-/

/-- Embeds the `Message` class: `role`, `content`, `pin` (default `False`). -/
structure Message where
  role : String
  content : String
  pin : Bool
deriving DecidableEq, Repr

/-- Embeds `Message.system(content)` (its `pin` parameter defaults to
`True` and is never overridden in the repository). -/
def Message.system (content : String) : Message :=
  ⟨"system", content, true⟩

/-- Embeds `Message.user(content)` (`pin` defaults to `False`, never
overridden). -/
def Message.user (content : String) : Message :=
  ⟨"user", content, false⟩

/-- Embeds `Message.assistant(content)` (`pin` defaults to `False`, never
overridden). -/
def Message.assistant (content : String) : Message :=
  ⟨"assistant", content, false⟩

/-- Embeds the `Conversation` class.  `keep_messages` and `pin_first` are
Python `int`s (they may be set to arbitrary integers from the command line),
so they are modelled as `Int`.  `msgcnt` embeds the private insertion counter
`_msgcnt`, which starts at 0 and is only ever incremented, hence `Nat`. -/
structure Conversation where
  model : String
  temperature : Rat
  messages : List Message
  keep_messages : Int
  pin_first : Int
  msgcnt : Nat
deriving DecidableEq, Repr

/-- Embeds `DEFAULT_MODEL`. -/
def DEFAULT_MODEL : String := "gpt-3.5-turbo"

/-- Embeds `DEFAULT_TEMPERATURE = 0.42` (as the exact rational 21/50,
constructed in lowest terms so that it evaluates by kernel reduction). -/
def DEFAULT_TEMPERATURE : Rat := ⟨21, 50, by norm_num, by norm_num⟩

/-- Embeds `Conversation.__init__`: the given keyword values are stored, the
message seed list is copied into `messages`, and the insertion counter
`_msgcnt` keeps its class-level default of 0 (the constructor never touches
it, so seed messages bypass the pin-on-insert counter). -/
def Conversation.init (model : String) (temperature : Rat)
    (keep_messages pin_first : Int)
    (messages : List Message) : Conversation :=
  { model := model
    temperature := temperature
    messages := messages
    keep_messages := keep_messages
    pin_first := pin_first
    msgcnt := 0 }

/-- Embeds `Conversation.add_message`: if `self._msgcnt < self.pin_first`
the message's `pin` flag is forced to `True`, then the message is appended
and the counter incremented. -/
def Conversation.add_message (c : Conversation) (msg : Message) : Conversation :=
  let msg' := if (c.msgcnt : Int) < c.pin_first then { msg with pin := true } else msg
  { c with messages := c.messages ++ [msg'], msgcnt := c.msgcnt + 1 }

/-- Embeds `Conversation.add_user`. -/
def Conversation.add_user (c : Conversation) (msg : String) : Conversation :=
  c.add_message (Message.user msg)

/-- Embeds `Conversation.add_assistant`. -/
def Conversation.add_assistant (c : Conversation) (msg : String) : Conversation :=
  c.add_message (Message.assistant msg)

/-- A sequence of `add_message` calls (left to right). -/
def Conversation.addMessages (c : Conversation) (msgs : List Message) : Conversation :=
  msgs.foldl Conversation.add_message c

/-- Embeds the backward selection loop of `Conversation.to_request`:
the input list is the history already reversed (most recent first), `cnt`
is the running count of non-pinned included messages.  A pinned message is
always appended; a non-pinned one only while `keep_messages <= 0 or
cnt < keep_messages`. -/
def selectRev (keep : Int) : Nat → List Message → List Message
  | _, [] => []
  | cnt, m :: rest =>
    if m.pin = true then m :: selectRev keep cnt rest
    else if keep ≤ 0 ∨ (cnt : Int) < keep then m :: selectRev keep (cnt + 1) rest
    else selectRev keep cnt rest

/-- The value of the running counter `cnt` after the backward loop of
`to_request` has traversed the given (already reversed) list. -/
def selCnt (keep : Int) : Nat → List Message → Nat
  | cnt, [] => cnt
  | cnt, m :: rest =>
    if m.pin = true then selCnt keep cnt rest
    else if keep ≤ 0 ∨ (cnt : Int) < keep then selCnt keep (cnt + 1) rest
    else selCnt keep cnt rest

/-- The `req_msgs` list computed by `Conversation.to_request`, restored to
chronological order (the code builds it most-recent-first while scanning
`reversed(self.messages)` and re-reverses it when emitting). -/
def Conversation.selectedMessages (c : Conversation) : List Message :=
  (selectRev c.keep_messages 0 c.messages.reverse).reverse

/-- A `{"role": ..., "content": ...}` entry of the request body. -/
structure RequestMsg where
  role : String
  content : String
deriving DecidableEq, Repr

/-- The request dictionary returned by `Conversation.to_request`. -/
structure Request where
  model : String
  temperature : Rat
  messages : List RequestMsg
  stream : Bool
deriving DecidableEq, Repr

/-- Embeds `Conversation.to_request`. -/
def Conversation.to_request (c : Conversation) : Request :=
  { model := c.model
    temperature := c.temperature
    messages := c.selectedMessages.map (fun m => ⟨m.role, m.content⟩)
    stream := true }

/-- Number of non-pinned messages in a list. -/
def npCount (l : List Message) : Nat := (l.filter (fun m => !m.pin)).length

/-- Modelled from the spec's words (section 4.1 / section 8, declaratively):
keep every pinned message; keep a non-pinned message exactly when
`keepMessages ≤ 0` (unlimited) or fewer than `keepMessages` non-pinned
messages occur after it in chronological order (these are the ones the
backward scan's running count admits first); emit in chronological order. -/
def specSelect (keep : Int) : List Message → List Message
  | [] => []
  | m :: rest =>
    if m.pin = true ∨ keep ≤ 0 ∨ (npCount rest : Int) < keep
    then m :: specSelect keep rest
    else specSelect keep rest

/-! ## The pin-on-insert counter of `add_message` -/

/-- Default message used with `List.getD`. -/
def dummyMsg : Message := ⟨"", "", false⟩

/-- The cumulative effect of a run of `add_message` calls on the inserted
messages: the message inserted while the counter reads `cnt` has its pin
flag forced exactly when `cnt < pin_first`. -/
def pinFromCounter (pf : Int) : Nat → List Message → List Message
  | _, [] => []
  | cnt, m :: ms =>
    (if (cnt : Int) < pf then { m with pin := true } else m)
      :: pinFromCounter pf (cnt + 1) ms

/-!
Part 2: the streaming completion client (`Client.complete`).

Strings coming off the wire are processed as code-point lists (`List Char`),
matching Python string semantics (`line[6:]`, `startswith`, `strip`).
-/

/-- Whitespace for Python's `str.strip()` (the ASCII subset of Unicode
whitespace; the streamed framing here is ASCII). -/
def isPySpace (c : Char) : Bool :=
  c == ' ' || c == '\t' || c == '\n' || c == '\r' || c == '\x0b' || c == '\x0c'

/-- `not s.strip()`: the string is empty or whitespace-only. -/
def isBlank (s : List Char) : Bool := s.all isPySpace

/-- `s.startswith(p)` on code-point lists. -/
def lstartsWith : List Char → List Char → Bool
  | _, [] => true
  | [], _ :: _ => false
  | c :: cs, p :: ps => c == p && lstartsWith cs ps

/-- JSON values as produced by Python's `json.loads` (object keys kept in
insertion order, looked up last-match-first like a dict built by repeated
assignment; numbers kept as lexemes, never inspected by this program). -/
inductive JValue where
  | null
  | bool (b : Bool)
  | num (lexeme : List Char)
  | str (s : List Char)
  | arr (elems : List JValue)
  | obj (fields : List (List Char × JValue))

/-- The Python exception classes relevant to the frame-decoding loop. -/
inductive PyErr where
  | keyError
  | typeError
  | indexError
  | valueError
  | attributeError
deriving DecidableEq, Repr

/-- JSON whitespace as skipped by Python's `json` module. -/
def isJsonWs (c : Char) : Bool := c == ' ' || c == '\t' || c == '\n' || c == '\r'

def hexVal (c : Char) : Option Nat :=
  if '0' ≤ c ∧ c ≤ '9' then some (c.toNat - '0'.toNat)
  else if 'a' ≤ c ∧ c ≤ 'f' then some (c.toNat - 'a'.toNat + 10)
  else if 'A' ≤ c ∧ c ≤ 'F' then some (c.toNat - 'A'.toNat + 10)
  else none

/-- Single-character JSON string escapes. -/
def unescape (e : Char) : Option Char :=
  if e == '"' then some '"'
  else if e == '\\' then some '\\'
  else if e == '/' then some '/'
  else if e == 'n' then some '\n'
  else if e == 't' then some '\t'
  else if e == 'r' then some '\r'
  else if e == 'b' then some '\x08'
  else if e == 'f' then some '\x0c'
  else none

/-- Body of a JSON string after the opening quote: decoded characters and
the remainder after the closing quote.  Fuel-driven; callers pass at least
`length + 1`.  (Strict-mode rejection of raw control characters is not
modelled; no claim depends on it.) -/
def parseStringBody : Nat → List Char → Option (List Char × List Char)
  | 0, _ => none
  | _ + 1, [] => none
  | fuel + 1, c :: rest =>
    if c == '"' then some ([], rest)
    else if c == '\\' then
      match rest with
      | 'u' :: a :: b :: d :: e :: rest' =>
        match hexVal a, hexVal b, hexVal d, hexVal e with
        | some ha, some hb, some hd, some he =>
          (parseStringBody fuel rest').map fun p =>
            (Char.ofNat (((ha * 16 + hb) * 16 + hd) * 16 + he) :: p.1, p.2)
        | _, _, _, _ => none
      | e :: rest' =>
        match unescape e with
        | some c' => (parseStringBody fuel rest').map fun p => (c' :: p.1, p.2)
        | none => none
      | [] => none
    else
      (parseStringBody fuel rest).map fun p => (c :: p.1, p.2)

/-- JSON string literal: parses the body with ample fuel. -/
def parseJString (cs : List Char) : Option (List Char × List Char) :=
  parseStringBody (cs.length + 1) cs

def parseDigits (cs : List Char) : List Char × List Char :=
  (cs.takeWhile Char.isDigit, cs.dropWhile Char.isDigit)

/-- Lexes a JSON number, keeping its lexeme.  (Leading-zero strictness is
not modelled; no claim depends on it.) -/
def parseNumber (cs : List Char) : Option (List Char × List Char) :=
  let p := match cs with
    | '-' :: rest => (['-'], rest)
    | _ => (([] : List Char), cs)
  let ip := parseDigits p.2
  if ip.1.isEmpty then none
  else
    let fp := match ip.2 with
      | '.' :: rest =>
        let ds := parseDigits rest
        if ds.1.isEmpty then (([] : List Char), ip.2) else ('.' :: ds.1, ds.2)
      | _ => (([] : List Char), ip.2)
    let ep := match fp.2 with
      | e :: rest =>
        if e == 'e' || e == 'E' then
          match rest with
          | s :: rest' =>
            if s == '+' || s == '-' then
              let ds := parseDigits rest'
              if ds.1.isEmpty then (([] : List Char), fp.2) else (e :: s :: ds.1, ds.2)
            else
              let ds := parseDigits rest
              if ds.1.isEmpty then (([] : List Char), fp.2) else (e :: ds.1, ds.2)
          | [] => (([] : List Char), fp.2)
        else (([] : List Char), fp.2)
      | [] => (([] : List Char), fp.2)
    some (p.1 ++ ip.1 ++ fp.1 ++ ep.1, ep.2)

mutual
/-- Recursive-descent JSON value grammar, modelling the `json.loads` parse
(fuel-driven; `json_loads` supplies ample fuel). -/
def parseJValue (fuel : Nat) (cs : List Char) : Option (JValue × List Char) :=
  match fuel with
  | 0 => none
  | fuel + 1 =>
    match List.dropWhile isJsonWs cs with
    | [] => none
    | c :: rest =>
      if c == '"' then
        (parseJString rest).map fun p => (JValue.str p.1, p.2)
      else if c == '\x7b' then
        match List.dropWhile isJsonWs rest with
        | '\x7d' :: r2 => some (JValue.obj [], r2)
        | r2 => (parseJMembers fuel r2).map fun p => (JValue.obj p.1, p.2)
      else if c == '[' then
        match List.dropWhile isJsonWs rest with
        | ']' :: r2 => some (JValue.arr [], r2)
        | r2 => (parseJElems fuel r2).map fun p => (JValue.arr p.1, p.2)
      else if c == 't' then
        if lstartsWith rest "rue".data then some (JValue.bool true, rest.drop 3)
        else none
      else if c == 'f' then
        if lstartsWith rest "alse".data then some (JValue.bool false, rest.drop 4)
        else none
      else if c == 'n' then
        if lstartsWith rest "ull".data then some (JValue.null, rest.drop 3)
        else none
      else if c == '-' || c.isDigit then
        (parseNumber (c :: rest)).map fun p => (JValue.num p.1, p.2)
      else none

/-- Comma-separated array elements up to the closing bracket. -/
def parseJElems (fuel : Nat) (cs : List Char) : Option (List JValue × List Char) :=
  match fuel with
  | 0 => none
  | fuel + 1 =>
    match parseJValue fuel cs with
    | none => none
    | some (v, r) =>
      match List.dropWhile isJsonWs r with
      | ',' :: r2 => (parseJElems fuel r2).map fun p => (v :: p.1, p.2)
      | ']' :: r2 => some ([v], r2)
      | _ => none

/-- Comma-separated `"key": value` members up to the closing brace. -/
def parseJMembers (fuel : Nat) (cs : List Char) :
    Option (List (List Char × JValue) × List Char) :=
  match fuel with
  | 0 => none
  | fuel + 1 =>
    match List.dropWhile isJsonWs cs with
    | '"' :: rest =>
      match parseJString rest with
      | none => none
      | some (k, r) =>
        match List.dropWhile isJsonWs r with
        | ':' :: r2 =>
          match parseJValue fuel r2 with
          | none => none
          | some (v, r3) =>
            match List.dropWhile isJsonWs r3 with
            | ',' :: r4 => (parseJMembers fuel r4).map fun p => ((k, v) :: p.1, p.2)
            | '\x7d' :: r4 => some ([(k, v)], r4)
            | _ => none
        | _ => none
    | _ => none
end

/-- Models Python's `json.loads`: parse one JSON value and require only
whitespace after it; any parse failure is a `ValueError`
(`json.JSONDecodeError` is a `ValueError` subclass). -/
def json_loads (cs : List Char) : Except PyErr JValue :=
  match parseJValue (2 * cs.length + 2) cs with
  | none => .error .valueError
  | some (v, rest) =>
    if (List.dropWhile isJsonWs rest).isEmpty then .ok v else .error .valueError

/-- Python dict lookup on an assoc list with later duplicate keys winning
(as `json.loads` builds its dicts by repeated assignment). -/
def lookupLast (fields : List (List Char × JValue)) (k : List Char) : Option JValue :=
  match fields with
  | [] => none
  | (k', v) :: rest =>
    match lookupLast rest k with
    | some r => some r
    | none => if k' == k then some v else none

/-- Python `value[key]` for a string key, with Python's exception classes:
a dict raises `KeyError` when the key is missing; every other JSON value
raises `TypeError` (lists reject string indices, strings and scalars are
not subscriptable by string). -/
def getStrKey (v : JValue) (k : List Char) : Except PyErr JValue :=
  match v with
  | .obj fields =>
    match lookupLast fields k with
    | some r => .ok r
    | none => .error .keyError
  | _ => .error .typeError

/-- Python `value[0]`: a list indexes (raising `IndexError` when empty); a
dict raises `KeyError` (JSON object keys are strings, never `0`); a string
indexes to a one-character string; other values raise `TypeError`. -/
def getIdx (v : JValue) (i : Nat) : Except PyErr JValue :=
  match v with
  | .arr xs =>
    match xs.get? i with
    | some r => .ok r
    | none => .error .indexError
  | .obj _ => .error .keyError
  | .str s =>
    match s.get? i with
    | some c => .ok (.str [c])
    | none => .error .indexError
  | _ => .error .typeError

/-- The subscript chain `decoded["choices"][0]["delta"]["content"]`. -/
def extractContent (v : JValue) : Except PyErr JValue := do
  let choices ← getStrKey v "choices".data
  let c0 ← getIdx choices 0
  let d ← getStrKey c0 "delta".data
  getStrKey d "content".data

/-- The leading-blank suppression block of `Client.complete`: while
`content_began` is false a delta that strips to empty is skipped
(`continue`); otherwise `content_began` is set and the delta is emitted
verbatim. -/
def stepContent (began : Bool) (s : List Char) : Bool × Option (List Char) :=
  if !began && isBlank s then (began, none) else (true, some s)

/-- The yielded deltas produced by folding `stepContent` over a sequence of
decoded content deltas. -/
def runDeltas (began : Bool) : List (List Char) → List (List Char)
  | [] => []
  | d :: ds =>
    match stepContent began d with
    | (b, none) => runDeltas b ds
    | (b, some s) => s :: runDeltas b ds

/-- How the loop body of `Client.complete` treats one framing line. -/
inductive LineClass where
  | skip
  | done
  | delta (s : List Char)
  | nonStrContent
  | raise (e : PyErr)
deriving DecidableEq

/-- Classifies a line exactly as the loop body does: a line not starting
with `"data: "` is skipped; a payload starting with `[DONE]` breaks the
loop; otherwise `json.loads(line[5:])` runs and
`choices[0].delta.content` is extracted, `KeyError` being caught (skip)
while every other exception propagates.  A successfully extracted non-string
content is reported separately (the exception it provokes depends on
`content_began`). -/
def classifyLine (line : String) : LineClass :=
  let cs := line.data
  if !(lstartsWith cs "data: ".data) then .skip
  else if lstartsWith (cs.drop 6) "[DONE]".data then .done
  else
    match json_loads (cs.drop 5) with
    | .error e => .raise e
    | .ok v =>
      match extractContent v with
      | .error .keyError => .skip
      | .error e => .raise e
      | .ok (.str s) => .delta s
      | .ok _ => .nonStrContent

/-- Observable events of one run of `Client.complete`, in order. -/
inductive Event where
  | toRequest
  | httpPost (req : Request)
  | readBody
  | raiseForStatus (code : Nat)
  | readLine (line : String)
  | yieldDelta (s : String)
  | raiseExc (e : PyErr)
  | addAssistant (s : String)
deriving DecidableEq, Repr

/-- `content_began` plus the `StringIO` accumulation buffer. -/
structure StreamState where
  began : Bool
  buf : List Char
deriving DecidableEq, Repr

/-- The line-reading loop of `Client.complete`: consumes framing lines in
order, producing the event list (each consumed line, each yielded delta,
the uncaught exception if one occurs), the final state, and the uncaught
exception if any.  Processing stops at the first `[DONE]` payload or
uncaught exception; `KeyError` frames and non-`data: ` lines are passed
over.  A non-string extracted content raises `AttributeError` from
`content.strip()` while `content_began` is false, and `TypeError` from
`output_buffer.write(content)` once it is true. -/
def processLines (st : StreamState) : List String → List Event × StreamState × Option PyErr
  | [] => ([], st, none)
  | line :: rest =>
    match classifyLine line with
    | .skip =>
      let r := processLines st rest
      (.readLine line :: r.1, r.2)
    | .done => ([.readLine line], st, none)
    | .raise e => ([.readLine line, .raiseExc e], st, some e)
    | .nonStrContent =>
      let e := if st.began then PyErr.typeError else PyErr.attributeError
      ([.readLine line, .raiseExc e], st, some e)
    | .delta s =>
      match stepContent st.began s with
      | (b, none) =>
        let r := processLines { began := b, buf := st.buf } rest
        (.readLine line :: r.1, r.2)
      | (b, some out) =>
        let r := processLines { began := b, buf := st.buf ++ out } rest
        (.readLine line :: .yieldDelta (String.mk out) :: r.1, r.2)

/-- The HTTP response as delivered by the transport: final status code and
the framing lines of the body (`resp.iter_lines()` handles the byte-level
splitting). -/
structure Response where
  status_code : Nat
  lines : List String
deriving DecidableEq, Repr

/-- How one run of `Client.complete` ends. -/
inductive Outcome where
  | ok
  | httpError (code : Nat)
  | streamError (e : PyErr)
deriving DecidableEq, Repr

/-- Models `requests.Response.raise_for_status`, which raises `HTTPError`
exactly for 4xx and 5xx status codes. -/
def raise_for_status_raises (code : Nat) : Bool := 400 ≤ code && code < 600

/-- Embeds `Client.complete`, run to exhaustion by its single consumer:
builds the request from the conversation snapshot, posts it, and on a
non-200 status drains the body (`_ = resp.text`) and calls
`raise_for_status` -- which raises only for 4xx/5xx, so for other non-200
statuses execution falls through to the reading loop, which `requests`
feeds from the cached, already-drained body.  On normal loop termination
the accumulated text is added to the conversation through `add_assistant`;
an uncaught exception propagates and skips that step. -/
def Client.complete (c : Conversation) (resp : Response) :
    List Event × Conversation × Outcome :=
  let req := c.to_request
  let head := [Event.toRequest, Event.httpPost req]
  if resp.status_code ≠ 200 then
    if raise_for_status_raises resp.status_code then
      (head ++ [.readBody, .raiseForStatus resp.status_code], c,
        .httpError resp.status_code)
    else
      match processLines ⟨false, []⟩ resp.lines with
      | (evs, _, some e) => (head ++ [.readBody] ++ evs, c, .streamError e)
      | (evs, st, none) =>
        (head ++ [.readBody] ++ evs ++ [.addAssistant (String.mk st.buf)],
          c.add_assistant (String.mk st.buf), .ok)
  else
    match processLines ⟨false, []⟩ resp.lines with
    | (evs, _, some e) => (head ++ evs, c, .streamError e)
    | (evs, st, none) =>
      (head ++ evs ++ [.addAssistant (String.mk st.buf)],
        c.add_assistant (String.mk st.buf), .ok)

/-- The deltas yielded in an event trace, in order. -/
def yieldsOf (evs : List Event) : List String :=
  evs.filterMap fun e =>
    match e with
    | .yieldDelta s => some s
    | _ => none

/-- The assistant texts appended in an event trace. -/
def addsOf (evs : List Event) : List String :=
  evs.filterMap fun e =>
    match e with
    | .addAssistant s => some s
    | _ => none

def Event.isToRequest : Event → Bool
  | .toRequest => true
  | _ => false

/-- Concatenation of the code points of a list of strings. -/
def joinData (l : List String) : List Char :=
  l.foldr (fun s acc => s.data ++ acc) []

/-! ## Concrete sample data used in tests and witnesses -/

/-- A fresh default conversation with an empty history. -/
def sampleConv : Conversation :=
  Conversation.init DEFAULT_MODEL DEFAULT_TEMPERATURE 0 0 []

/-- Frame carrying an empty content delta. -/
def frameEmptyDelta : String :=
  "data: \x7b\"choices\":[\x7b\"delta\":\x7b\"content\":\"\"\x7d\x7d]\x7d"

/-- Frame carrying the content delta `"Hi"`. -/
def frameHi : String :=
  "data: \x7b\"choices\":[\x7b\"delta\":\x7b\"content\":\"Hi\"\x7d\x7d]\x7d"

/-- The stream terminator frame. -/
def frameDone : String := "data: [DONE]"

/-- A metadata-only frame announcing the role, with no `content` key. -/
def frameRole : String :=
  "data: \x7b\"choices\":[\x7b\"delta\":\x7b\"role\":\"assistant\"\x7d\x7d]\x7d"

/-- A `data: ` frame whose payload is not valid JSON. -/
def frameBad : String := "data: nonsense"

/-- True unless the line classifies as a content delta that is not blank:
used to say a stream carries no non-whitespace content delta. -/
def blankDeltaOnly (line : String) : Bool :=
  match classifyLine line with
  | .delta s => isBlank s
  | _ => true

/-! ## Lemmas and claim theorems -/

lemma npCount_nil : npCount [] = 0 := rfl

lemma npCount_cons (m : Message) (l : List Message) :
    npCount (m :: l) = (if m.pin = true then 0 else 1) + npCount l := by
  by_cases h : m.pin = true
  · simp [npCount, List.filter_cons, h]
  · simp [npCount, List.filter_cons, h]
    omega

lemma npCount_reverse (l : List Message) : npCount l.reverse = npCount l := by
  simp [npCount, List.filter_reverse]

lemma selectRev_cons (keep : Int) (cnt : Nat) (m : Message) (rest : List Message) :
    selectRev keep cnt (m :: rest) =
      if m.pin = true then m :: selectRev keep cnt rest
      else if keep ≤ 0 ∨ (cnt : Int) < keep then m :: selectRev keep (cnt + 1) rest
      else selectRev keep cnt rest := rfl

lemma selCnt_cons (keep : Int) (cnt : Nat) (m : Message) (rest : List Message) :
    selCnt keep cnt (m :: rest) =
      if m.pin = true then selCnt keep cnt rest
      else if keep ≤ 0 ∨ (cnt : Int) < keep then selCnt keep (cnt + 1) rest
      else selCnt keep cnt rest := rfl

lemma specSelect_cons (keep : Int) (m : Message) (rest : List Message) :
    specSelect keep (m :: rest) =
      if m.pin = true ∨ keep ≤ 0 ∨ (npCount rest : Int) < keep
      then m :: specSelect keep rest else specSelect keep rest := rfl

lemma selectRev_append (keep : Int) (l₁ l₂ : List Message) (cnt : Nat) :
    selectRev keep cnt (l₁ ++ l₂) =
      selectRev keep cnt l₁ ++ selectRev keep (selCnt keep cnt l₁) l₂ := by
  induction l₁ generalizing cnt with
  | nil => simp [selectRev, selCnt]
  | cons m rest ih =>
    rw [List.cons_append, selectRev_cons, selectRev_cons, selCnt_cons]
    by_cases hp : m.pin = true
    · rw [if_pos hp, if_pos hp, if_pos hp, ih, List.cons_append]
    · rw [if_neg hp, if_neg hp, if_neg hp]
      by_cases hc : keep ≤ 0 ∨ (cnt : Int) < keep
      · rw [if_pos hc, if_pos hc, if_pos hc, ih, List.cons_append]
      · rw [if_neg hc, if_neg hc, if_neg hc, ih]

lemma selCnt_lt_iff (keep : Int) (hk : 0 < keep) (l : List Message) (cnt : Nat) :
    ((selCnt keep cnt l : Int) < keep) ↔ ((cnt : Int) + npCount l < keep) := by
  induction l generalizing cnt with
  | nil => simp [selCnt, npCount]
  | cons m rest ih =>
    rw [selCnt_cons, npCount_cons]
    by_cases hp : m.pin = true
    · rw [if_pos hp, if_pos hp, ih]
      push_cast
      omega
    · rw [if_neg hp, if_neg hp]
      by_cases hc : (cnt : Int) < keep
      · rw [if_pos (Or.inr hc), ih]
        push_cast
        omega
      · have hcond : ¬ (keep ≤ 0 ∨ (cnt : Int) < keep) := by
          rintro (h | h) <;> omega
        rw [if_neg hcond, ih]
        push_cast
        omega

/-- Key characterization: the backward scan of `to_request`, re-reversed,
equals the declarative forward selection `specSelect`. -/
lemma selectRev_eq_specSelect (keep : Int) (msgs : List Message) :
    (selectRev keep 0 msgs.reverse).reverse = specSelect keep msgs := by
  induction msgs with
  | nil => rfl
  | cons m rest ih =>
    rw [List.reverse_cons, selectRev_append, List.reverse_append, ih]
    have hone : ∀ cnt : Nat, selectRev keep cnt [m] =
        if m.pin = true ∨ keep ≤ 0 ∨ (cnt : Int) < keep then [m] else [] := by
      intro cnt
      rw [selectRev_cons]
      by_cases hp : m.pin = true
      · rw [if_pos hp, if_pos (Or.inl hp)]
        rfl
      · rw [if_neg hp]
        by_cases hc : keep ≤ 0 ∨ (cnt : Int) < keep
        · rw [if_pos hc, if_pos (Or.inr hc)]
          rfl
        · rw [if_neg hc, if_neg (by rintro (h | h); exacts [hp h, hc h])]
          rfl
    rw [hone, specSelect_cons]
    by_cases hcond : m.pin = true ∨ keep ≤ 0 ∨ (npCount rest : Int) < keep
    · have hsel : m.pin = true ∨ keep ≤ 0 ∨ ((selCnt keep 0 rest.reverse : Int) < keep) := by
        rcases hcond with h | h | h
        · exact Or.inl h
        · exact Or.inr (Or.inl h)
        · have hk : 0 < keep := by omega
          right; right
          rw [selCnt_lt_iff keep hk, npCount_reverse]
          push_cast
          omega
      rw [if_pos hsel, if_pos hcond]
      simp
    · push_neg at hcond
      obtain ⟨h1, h2, h3⟩ := hcond
      have hk : 0 < keep := h2
      have hsel : ¬ (m.pin = true ∨ keep ≤ 0 ∨ ((selCnt keep 0 rest.reverse : Int) < keep)) := by
        rintro (h | h | h)
        · exact h1 h
        · omega
        · rw [selCnt_lt_iff keep hk, npCount_reverse] at h
          omega
      rw [if_neg hsel,
          if_neg (by rintro (h | h | h); exacts [h1 h, by omega, by omega])]
      simp

lemma specSelect_sublist (keep : Int) (l : List Message) :
    (specSelect keep l).Sublist l := by
  induction l with
  | nil => simp [specSelect]
  | cons m rest ih =>
    rw [specSelect_cons]
    by_cases h : m.pin = true ∨ keep ≤ 0 ∨ (npCount rest : Int) < keep
    · rw [if_pos h]
      exact ih.cons₂ m
    · rw [if_neg h]
      exact ih.cons m

lemma selectedMessages_eq_spec (c : Conversation) :
    c.selectedMessages = specSelect c.keep_messages c.messages :=
  selectRev_eq_specSelect c.keep_messages c.messages

lemma pin_mem_specSelect (keep : Int) (l : List Message) (m : Message)
    (hm : m ∈ l) (hp : m.pin = true) : m ∈ specSelect keep l := by
  induction l with
  | nil => cases hm
  | cons x rest ih =>
    rw [specSelect_cons]
    rcases List.mem_cons.mp hm with h | h
    · subst h
      rw [if_pos (Or.inl hp)]
      exact List.mem_cons_self _ _
    · by_cases hc : x.pin = true ∨ keep ≤ 0 ∨ (npCount rest : Int) < keep
      · rw [if_pos hc]
        exact List.mem_cons_of_mem _ (ih h)
      · rw [if_neg hc]
        exact ih h

lemma npCount_specSelect_le (keep : Int) (hk : 0 < keep) (l : List Message) :
    (npCount (specSelect keep l) : Int) ≤ keep := by
  induction l with
  | nil =>
    show ((npCount [] : Int)) ≤ keep
    rw [npCount_nil]
    omega
  | cons m rest ih =>
    have hk0 : ¬ keep ≤ 0 := by omega
    rw [specSelect_cons]
    by_cases hp : m.pin = true
    · rw [if_pos (Or.inl hp), npCount_cons, if_pos hp]
      push_cast
      omega
    · by_cases hc : (npCount rest : Int) < keep
      · rw [if_pos (Or.inr (Or.inr hc)), npCount_cons, if_neg hp]
        have hsub : (npCount (specSelect keep rest) : Int) ≤ npCount rest := by
          have := ((specSelect_sublist keep rest).filter
            (fun m => !m.pin)).length_le
          exact_mod_cast this
        push_cast
        omega
      · rw [if_neg (by rintro (h | h | h); exacts [hp h, hk0 h, hc h])]
        exact ih

lemma addMessages_fields (c : Conversation) (ms : List Message) :
    (c.addMessages ms).messages = c.messages ++ pinFromCounter c.pin_first c.msgcnt ms
    ∧ (c.addMessages ms).msgcnt = c.msgcnt + ms.length
    ∧ (c.addMessages ms).pin_first = c.pin_first := by
  induction ms generalizing c with
  | nil => simp [Conversation.addMessages, pinFromCounter]
  | cons m ms ih =>
    obtain ⟨h1, h2, h3⟩ := ih (c.add_message m)
    refine ⟨?_, ?_, ?_⟩
    · show ((c.add_message m).addMessages ms).messages = _
      rw [h1]
      simp [Conversation.add_message, pinFromCounter, List.append_assoc]
    · show ((c.add_message m).addMessages ms).msgcnt = _
      rw [h2]
      simp [Conversation.add_message]
      omega
    · show ((c.add_message m).addMessages ms).pin_first = _
      rw [h3]
      rfl

lemma pinFromCounter_getD (pf : Int) (ms : List Message) (cnt i : Nat)
    (hi : i < ms.length) (hpf : (cnt : Int) + i < pf) :
    ((pinFromCounter pf cnt ms).getD i dummyMsg).pin = true := by
  induction ms generalizing cnt i with
  | nil => simp at hi
  | cons m ms ih =>
    cases i with
    | zero =>
      have hc : (cnt : Int) < pf := by push_cast at hpf; omega
      simp [pinFromCounter, hc]
    | succ i =>
      have hi' : i < ms.length := by simpa using hi
      have hpf' : ((cnt + 1 : Nat) : Int) + i < pf := by push_cast at hpf ⊢; omega
      simpa [pinFromCounter] using ih (cnt + 1) i hi' hpf'

/-! ## Claim theorems C1-C4 -/

/-- C1: for every conversation history and every value of `keep_messages`,
every message whose pin flag is true appears in the message list produced by
`Conversation.to_request`; pinned messages are never dropped by the trimming
policy. -/
theorem pinned_always_in_to_request (c : Conversation) (m : Message)
    (hm : m ∈ c.messages) (hp : m.pin = true) :
    (⟨m.role, m.content⟩ : RequestMsg) ∈ (c.to_request).messages := by
  have hsel : m ∈ c.selectedMessages := by
    rw [selectedMessages_eq_spec]
    exact pin_mem_specSelect _ _ _ hm hp
  exact List.mem_map_of_mem _ hsel

theorem pinned_always_in_to_request_witness :
    Message.system "s" ∈ (Conversation.init DEFAULT_MODEL DEFAULT_TEMPERATURE 1 0
        ([Message.system "s", Message.user "a", Message.user "b"])).messages
    ∧ (Message.system "s").pin = true
    ∧ (⟨"system", "s"⟩ : RequestMsg) ∈ ((Conversation.init DEFAULT_MODEL DEFAULT_TEMPERATURE 1 0
        ([Message.system "s", Message.user "a", Message.user "b"])).to_request).messages := by
  refine ⟨by decide, by decide, ?_⟩
  exact pinned_always_in_to_request _ (Message.system "s") (by decide) (by decide)

/-- C2: `to_request` selects messages exactly as the spec's backward-scan
policy describes.  Stated declaratively: the selected list equals
`specSelect` (keep every pinned message -- so excluding a non-pinned message
never excludes an older pinned one -- and keep a non-pinned message exactly
when `keep_messages ≤ 0` or fewer than `keep_messages` non-pinned messages
follow it), it is a sublist of the history (hence emitted in the original
chronological relative order), and the emitted request serializes it in that
order. -/
theorem to_request_selection_spec (c : Conversation) :
    c.selectedMessages = specSelect c.keep_messages c.messages
    ∧ c.selectedMessages.Sublist c.messages
    ∧ (c.to_request).messages = c.selectedMessages.map (fun m => ⟨m.role, m.content⟩) := by
  refine ⟨selectedMessages_eq_spec c, ?_, rfl⟩
  rw [selectedMessages_eq_spec]
  exact specSelect_sublist _ _

/-- C3: for every history and every `keep_messages = k > 0`, the number of
non-pinned messages in the list selected by `to_request` never exceeds k. -/
theorem to_request_nonpinned_bound (c : Conversation)
    (hk : 0 < c.keep_messages) :
    (npCount c.selectedMessages : Int) ≤ c.keep_messages := by
  rw [selectedMessages_eq_spec]
  exact npCount_specSelect_le _ hk _

theorem to_request_nonpinned_bound_witness :
    (0 : Int) < 1
    ∧ (npCount (Conversation.init DEFAULT_MODEL DEFAULT_TEMPERATURE 1 0
        ([Message.system "s", Message.user "a", Message.user "b",
                      Message.user "c"])).selectedMessages : Int) ≤ 1 :=
  ⟨by decide,
   to_request_nonpinned_bound (Conversation.init DEFAULT_MODEL DEFAULT_TEMPERATURE 1 0
        ([Message.system "s", Message.user "a", Message.user "b",
                    Message.user "c"])) (by decide)⟩

/-- C4: a message passed to `add_message` has its pin flag forced to true
exactly when the number of messages previously added through `add_message`
(the counter `msgcnt`) is less than `pin_first`; consequently the first N
messages added via `add_message` after construction are pinned at insertion
time, regardless of `keep_messages`; and messages supplied at construction
bypass the counter (which stays 0) and keep their given pin flags. -/
theorem add_message_pin_first_semantics :
    (∀ (c : Conversation) (m : Message),
      (c.add_message m).messages =
        c.messages ++ [if (c.msgcnt : Int) < c.pin_first then { m with pin := true } else m]
      ∧ (c.add_message m).msgcnt = c.msgcnt + 1)
    ∧ (∀ (model : String) (temp : Rat) (keep pf : Int) (seed : List Message),
        (Conversation.init model temp keep pf seed).messages = seed
        ∧ (Conversation.init model temp keep pf seed).msgcnt = 0)
    ∧ (∀ (model : String) (temp : Rat) (keep pf : Int) (seed ms : List Message)
        (i : Nat), i < ms.length → (i : Int) < pf →
        (((Conversation.init model temp keep pf seed).addMessages ms).messages.getD
            (seed.length + i) dummyMsg).pin = true) := by
  refine ⟨fun c m => ⟨rfl, rfl⟩, fun _ _ _ _ _ => ⟨rfl, rfl⟩, ?_⟩
  intro model temp keep pf seed ms i hi hpf
  obtain ⟨hmsgs, -, -⟩ := addMessages_fields (Conversation.init model temp keep pf seed) ms
  rw [hmsgs]
  show ((seed ++ pinFromCounter pf 0 ms).getD (seed.length + i) dummyMsg).pin = true
  rw [List.getD_append_right _ _ _ _ (by omega)]
  have hlen : seed.length + i - seed.length = i := by omega
  rw [hlen]
  exact pinFromCounter_getD pf ms 0 i hi (by push_cast; omega)

theorem add_message_pin_first_semantics_witness :
    (0 : Nat) < 3
    ∧ ((0 : Nat) : Int) < 2
    ∧ ((((Conversation.init "m" 1 1 2 []).addMessages
          [Message.user "x", Message.user "y", Message.user "z"]).messages.getD
          0 dummyMsg)).pin = true := by
  refine ⟨by decide, by decide, ?_⟩
  exact add_message_pin_first_semantics.2.2 "m" 1 1 2 []
    [Message.user "x", Message.user "y", Message.user "z"] 0 (by decide) (by decide)


example :
    (Conversation.init DEFAULT_MODEL DEFAULT_TEMPERATURE 1 0
        ([Message.system "sys", Message.user "a", Message.assistant "b",
                    Message.user "c"])).selectedMessages
    = [Message.system "sys", Message.user "c"] := by decide

example :
    (Conversation.init DEFAULT_MODEL DEFAULT_TEMPERATURE 2 0
        ([Message.user "a", Message.user "b", Message.user "c"])).selectedMessages
    = [Message.user "b", Message.user "c"] := by decide


/-! ## Stream-processing lemmas -/

lemma processLines_nil (st : StreamState) : processLines st [] = ([], st, none) := rfl

lemma processLines_cons (st : StreamState) (line : String) (rest : List String) :
    processLines st (line :: rest) =
      match classifyLine line with
      | .skip =>
        let r := processLines st rest
        (.readLine line :: r.1, r.2)
      | .done => ([.readLine line], st, none)
      | .raise e => ([.readLine line, .raiseExc e], st, some e)
      | .nonStrContent =>
        let e := if st.began then PyErr.typeError else PyErr.attributeError
        ([.readLine line, .raiseExc e], st, some e)
      | .delta s =>
        match stepContent st.began s with
        | (b, none) =>
          let r := processLines { began := b, buf := st.buf } rest
          (.readLine line :: r.1, r.2)
        | (b, some out) =>
          let r := processLines { began := b, buf := st.buf ++ out } rest
          (.readLine line :: .yieldDelta (String.mk out) :: r.1, r.2) := rfl

lemma joinData_nil : joinData [] = [] := rfl

lemma joinData_cons (s : String) (l : List String) :
    joinData (s :: l) = s.data ++ joinData l := rfl

/-- The `StringIO` buffer after the loop holds exactly the concatenation of
the yielded deltas (appended to whatever was in the buffer before). -/
lemma processLines_buf (lines : List String) (st : StreamState) :
    ((processLines st lines).2.1).buf
      = st.buf ++ joinData (yieldsOf (processLines st lines).1) := by
  induction lines generalizing st with
  | nil => simp [processLines_nil, yieldsOf, joinData]
  | cons line rest ih =>
    cases hcl : classifyLine line with
    | skip =>
      simp only [processLines_cons, hcl]
      simpa [yieldsOf, List.filterMap_cons] using ih st
    | done => simp [processLines_cons, hcl, yieldsOf, List.filterMap_cons, joinData]
    | raise e => simp [processLines_cons, hcl, yieldsOf, List.filterMap_cons, joinData]
    | nonStrContent =>
      simp [processLines_cons, hcl, yieldsOf, List.filterMap_cons, joinData]
    | delta s =>
      simp only [processLines_cons, hcl]
      rcases hsc : stepContent st.began s with ⟨b, o⟩
      cases o with
      | none =>
        simpa [yieldsOf, List.filterMap_cons] using ih ⟨b, st.buf⟩
      | some out =>
        have h := ih ⟨b, st.buf ++ out⟩
        simp only [yieldsOf, List.filterMap_cons] at h ⊢
        simp [h, joinData_cons, yieldsOf]

/-- The loop itself never appends to the conversation. -/
lemma processLines_adds (lines : List String) (st : StreamState) :
    addsOf (processLines st lines).1 = [] := by
  induction lines generalizing st with
  | nil => simp [processLines_nil, addsOf]
  | cons line rest ih =>
    cases hcl : classifyLine line with
    | skip =>
      simp only [processLines_cons, hcl]
      simpa [addsOf, List.filterMap_cons] using ih st
    | done => simp [processLines_cons, hcl, addsOf, List.filterMap_cons]
    | raise e => simp [processLines_cons, hcl, addsOf, List.filterMap_cons]
    | nonStrContent => simp [processLines_cons, hcl, addsOf, List.filterMap_cons]
    | delta s =>
      simp only [processLines_cons, hcl]
      rcases hsc : stepContent st.began s with ⟨b, o⟩
      cases o with
      | none => simpa [addsOf, List.filterMap_cons] using ih ⟨b, st.buf⟩
      | some out =>
        simpa [addsOf, List.filterMap_cons] using ih ⟨b, st.buf ++ out⟩

/-- The loop never rebuilds the request. -/
lemma processLines_no_toRequest (lines : List String) (st : StreamState) :
    ((processLines st lines).1.all fun e => !e.isToRequest) = true := by
  induction lines generalizing st with
  | nil => simp [processLines_nil]
  | cons line rest ih =>
    cases hcl : classifyLine line with
    | skip =>
      simp only [processLines_cons, hcl]
      simpa [Event.isToRequest] using ih st
    | done => simp [processLines_cons, hcl, Event.isToRequest]
    | raise e => simp [processLines_cons, hcl, Event.isToRequest]
    | nonStrContent => simp [processLines_cons, hcl, Event.isToRequest]
    | delta s =>
      simp only [processLines_cons, hcl]
      rcases hsc : stepContent st.began s with ⟨b, o⟩
      cases o with
      | none => simpa [Event.isToRequest] using ih ⟨b, st.buf⟩
      | some out => simpa [Event.isToRequest] using ih ⟨b, st.buf ++ out⟩

/-- Lines after a `[DONE]` frame are never consumed: the loop's result on
`pre ++ dl :: post` is its result on `pre ++ [dl]`, for any `post`. -/
lemma processLines_done_stop (st : StreamState) (pre post : List String) (dl : String)
    (hdl : classifyLine dl = .done) :
    processLines st (pre ++ dl :: post) = processLines st (pre ++ [dl]) := by
  induction pre generalizing st with
  | nil => simp only [List.nil_append, processLines_cons, hdl]
  | cons line pre ih =>
    cases hcl : classifyLine line with
    | skip => simp only [List.cons_append, processLines_cons, hcl, ih]
    | done => simp only [List.cons_append, processLines_cons, hcl]
    | raise e => simp only [List.cons_append, processLines_cons, hcl]
    | nonStrContent => simp only [List.cons_append, processLines_cons, hcl]
    | delta s =>
      simp only [List.cons_append, processLines_cons, hcl]
      rcases hsc : stepContent st.began s with ⟨b, o⟩
      cases o with
      | none => simp only [ih]
      | some out => simp only [ih]

/-- After the first non-blank delta `stepContent` passes everything through. -/
lemma runDeltas_true (ds : List (List Char)) : runDeltas true ds = ds := by
  induction ds with
  | nil => rfl
  | cons d ds ih =>
    simp [runDeltas, stepContent, ih]

/-- The leading-blank suppression law: starting with `content_began = False`,
the yielded deltas are the input deltas with their blank leading segment
removed, every later delta (blank or not) passing through verbatim. -/
lemma runDeltas_eq_dropWhile (ds : List (List Char)) :
    runDeltas false ds = ds.dropWhile isBlank := by
  induction ds with
  | nil => rfl
  | cons d ds ih =>
    by_cases hb : isBlank d = true
    · simp [runDeltas, stepContent, hb, List.dropWhile_cons, ih]
    · simp [runDeltas, stepContent, hb, List.dropWhile_cons, runDeltas_true]

lemma runDeltas_cons (began : Bool) (d : List Char) (ds : List (List Char)) :
    runDeltas began (d :: ds) =
      match stepContent began d with
      | (b, none) => runDeltas b ds
      | (b, some s) => s :: runDeltas b ds := rfl

/-- On a run of pure content-delta frames the loop yields exactly what
`stepContent` dictates and never raises. -/
lemma processLines_forall_delta (lines : List String) (ds : List (List Char))
    (st : StreamState)
    (h : List.Forall₂ (fun line d => classifyLine line = .delta d) lines ds) :
    yieldsOf (processLines st lines).1 = (runDeltas st.began ds).map String.mk
    ∧ (processLines st lines).2.2 = none := by
  induction h generalizing st with
  | nil => simp [processLines_nil, yieldsOf, runDeltas]
  | cons hld hrest ih =>
    rename_i line d lines' ds'
    simp only [processLines_cons, hld]
    rcases hsc : stepContent st.began d with ⟨b, o⟩
    cases o with
    | none =>
      obtain ⟨hy, he⟩ := ih ⟨b, st.buf⟩
      constructor
      · simp only [yieldsOf, List.filterMap_cons] at hy ⊢
        rw [runDeltas_cons, hsc]
        simpa [yieldsOf] using hy
      · exact he
    | some out =>
      obtain ⟨hy, he⟩ := ih ⟨b, st.buf ++ out⟩
      constructor
      · simp only [yieldsOf, List.filterMap_cons] at hy ⊢
        rw [runDeltas_cons, hsc]
        simpa [yieldsOf] using hy
      · exact he

/-- A stream whose content deltas are all blank leaves the state untouched
(`content_began` stays false, the buffer stays empty) and yields nothing. -/
lemma processLines_all_blank (lines : List String)
    (hblank : lines.all blankDeltaOnly = true) :
    yieldsOf (processLines ⟨false, []⟩ lines).1 = []
    ∧ (processLines ⟨false, []⟩ lines).2.1 = ⟨false, []⟩ := by
  induction lines with
  | nil => simp [processLines_nil, yieldsOf]
  | cons line rest ih =>
    rw [List.all_cons, Bool.and_eq_true] at hblank
    obtain ⟨h1, h2⟩ := hblank
    cases hcl : classifyLine line with
    | skip =>
      simp only [processLines_cons, hcl]
      obtain ⟨hy, hs⟩ := ih h2
      exact ⟨by simpa [yieldsOf, List.filterMap_cons] using hy, hs⟩
    | done => simp [processLines_cons, hcl, yieldsOf, List.filterMap_cons]
    | raise e => simp [processLines_cons, hcl, yieldsOf, List.filterMap_cons]
    | nonStrContent => simp [processLines_cons, hcl, yieldsOf, List.filterMap_cons]
    | delta s =>
      have hb : isBlank s = true := by
        simpa [blankDeltaOnly, hcl] using h1
      have hsc : stepContent false s = (false, none) := by
        simp [stepContent, hb]
      simp only [processLines_cons, hcl, hsc]
      obtain ⟨hy, hs⟩ := ih h2
      exact ⟨by simpa [yieldsOf, List.filterMap_cons] using hy, hs⟩

/-- Unfolding of `Client.complete` on a 200 response whose loop terminates
normally. -/
lemma complete_200_ok (c : Conversation) (lines : List String) (evs : List Event)
    (st : StreamState) (h : processLines ⟨false, []⟩ lines = (evs, st, none)) :
    Client.complete c ⟨200, lines⟩ =
      (Event.toRequest :: Event.httpPost c.to_request ::
        (evs ++ [Event.addAssistant (String.mk st.buf)]),
       c.add_assistant (String.mk st.buf), Outcome.ok) := by
  unfold Client.complete
  simp [h]

/-! ## Claim theorems C5-C10 -/

/-- C5: `Client.complete` suppresses leading blank deltas.  Stated as:
(i) the suppression block (`stepContent`, folded by `runDeltas`) maps any
delta sequence to the sequence with its leading blank deltas removed and
everything after the first non-blank delta passed through verbatim;
(ii) on a run of content-delta frames the loop's yields are exactly those;
(iii) the accumulation buffer always holds exactly the concatenation of the
yielded deltas; and (iv) concretely, the frames carrying deltas `""`, `"Hi"`
and then `[DONE]` make `complete` yield exactly `"Hi"` and extend the
conversation with exactly one assistant message of content `"Hi"`. -/
theorem complete_leading_blank_suppression :
    (∀ ds : List (List Char), runDeltas false ds = ds.dropWhile isBlank)
    ∧ (∀ (lines : List String) (ds : List (List Char)),
        List.Forall₂ (fun line d => classifyLine line = .delta d) lines ds →
        yieldsOf (processLines ⟨false, []⟩ lines).1
          = (ds.dropWhile isBlank).map String.mk)
    ∧ (∀ (lines : List String) (st : StreamState),
        ((processLines st lines).2.1).buf
          = st.buf ++ joinData (yieldsOf (processLines st lines).1))
    ∧ yieldsOf (Client.complete sampleConv
        ⟨200, [frameEmptyDelta, frameHi, frameDone]⟩).1 = ["Hi"]
    ∧ (Client.complete sampleConv ⟨200, [frameEmptyDelta, frameHi, frameDone]⟩).2.1
        = sampleConv.add_assistant "Hi"
    ∧ (Client.complete sampleConv ⟨200, [frameEmptyDelta, frameHi, frameDone]⟩).2.2
        = Outcome.ok := by
  refine ⟨runDeltas_eq_dropWhile, ?_, processLines_buf, by decide, by decide, by decide⟩
  intro lines ds h
  have hy := (processLines_forall_delta lines ds ⟨false, []⟩ h).1
  rwa [runDeltas_eq_dropWhile] at hy

theorem complete_leading_blank_suppression_witness :
    List.Forall₂ (fun line d => classifyLine line = .delta d)
      [frameEmptyDelta, frameHi] [[], "Hi".data]
    ∧ yieldsOf (processLines ⟨false, []⟩ [frameEmptyDelta, frameHi]).1
        = (([[], "Hi".data] : List (List Char)).dropWhile isBlank).map String.mk := by
  have h : List.Forall₂ (fun line d => classifyLine line = .delta d)
      [frameEmptyDelta, frameHi] [[], "Hi".data] :=
    List.Forall₂.cons (by decide) (List.Forall₂.cons (by decide) List.Forall₂.nil)
  exact ⟨h, complete_leading_blank_suppression.2.1 _ _ h⟩

/-- C6 (amended): a `data: `-prefixed line whose decode raises `KeyError`
-- its decoded JSON lacks one of the dictionary keys `choices`, `delta` or
`content` on the path -- is silently skipped and parsing continues with the
next line; such a frame is never yielded and never aborts the stream.
Concretely, the role-announcement frame is skipped and the stream goes on
to yield `"Hi"`.  (The claim's further case, a payload that fails to decode
as JSON, instead raises an uncaught `ValueError` that aborts the stream:
see the counterexample theorem.) -/
theorem keyerror_frame_skipped :
    (∀ (st : StreamState) (line : String) (rest : List String),
      lstartsWith line.data "data: ".data = true →
      classifyLine line = LineClass.skip →
      processLines st (line :: rest) =
        (Event.readLine line :: (processLines st rest).1, (processLines st rest).2))
    ∧ yieldsOf (Client.complete sampleConv ⟨200, [frameRole, frameHi, frameDone]⟩).1
        = ["Hi"]
    ∧ (Client.complete sampleConv ⟨200, [frameRole, frameHi, frameDone]⟩).2.2
        = Outcome.ok := by
  refine ⟨?_, by decide, by decide⟩
  intro st line rest _hdata hcl
  simp [processLines_cons, hcl]

theorem keyerror_frame_skipped_witness :
    lstartsWith frameRole.data "data: ".data = true
    ∧ classifyLine frameRole = LineClass.skip
    ∧ processLines ⟨false, []⟩ [frameRole, frameDone] =
        (Event.readLine frameRole :: (processLines ⟨false, []⟩ [frameDone]).1,
         (processLines ⟨false, []⟩ [frameDone]).2) := by
  refine ⟨by decide, by decide, ?_⟩
  exact keyerror_frame_skipped.1 ⟨false, []⟩ frameRole [frameDone] (by decide) (by decide)

/-- C6 counterexample: a `data: ` line whose payload fails to decode as
JSON is not skipped.  The `json.loads` `ValueError` is not caught by the
`except KeyError` handler, the stream aborts, the following well-formed
`"Hi"` frame is never processed, and no assistant message is appended. -/
theorem malformed_json_aborts_stream :
    (Client.complete sampleConv ⟨200, [frameBad, frameHi, frameDone]⟩).2.2
        = Outcome.streamError PyErr.valueError
    ∧ yieldsOf (Client.complete sampleConv ⟨200, [frameBad, frameHi, frameDone]⟩).1 = []
    ∧ (Client.complete sampleConv ⟨200, [frameBad, frameHi, frameDone]⟩).2.1
        = sampleConv := by
  decide

/-- C7: when the stream completes without an uncaught exception -- by a
`[DONE]` frame, which stops reading immediately (the result does not depend
on any line after it), or by natural end of input -- `complete` appends the
concatenation of all yielded deltas to the conversation as a new
assistant-role message via the normal add path (`add_assistant`, so
`pin_first` semantics apply to it), and this append is the single final
event of the trace, after the last delta is yielded and never before. -/
theorem complete_commits_once_at_end :
    (∀ (c : Conversation) (lines : List String) (evs : List Event) (st : StreamState),
      processLines ⟨false, []⟩ lines = (evs, st, none) →
      Client.complete c ⟨200, lines⟩ =
        (Event.toRequest :: Event.httpPost c.to_request ::
          (evs ++ [Event.addAssistant (String.mk st.buf)]),
         c.add_assistant (String.mk st.buf), Outcome.ok)
      ∧ st.buf = joinData (yieldsOf evs)
      ∧ addsOf evs = [])
    ∧ (∀ (st : StreamState) (pre post : List String) (dl : String),
        classifyLine dl = LineClass.done →
        processLines st (pre ++ dl :: post) = processLines st (pre ++ [dl])) := by
  refine ⟨?_, processLines_done_stop⟩
  intro c lines evs st h
  refine ⟨complete_200_ok c lines evs st h, ?_, ?_⟩
  · have hb := processLines_buf lines ⟨false, []⟩
    rw [h] at hb
    simpa using hb
  · have ha := processLines_adds lines ⟨false, []⟩
    rw [h] at ha
    exact ha

theorem complete_commits_once_at_end_witness :
    processLines ⟨false, []⟩ [frameHi, frameDone] =
      ([Event.readLine frameHi, Event.yieldDelta "Hi", Event.readLine frameDone],
        ⟨true, "Hi".data⟩, none)
    ∧ Client.complete sampleConv ⟨200, [frameHi, frameDone]⟩ =
        (Event.toRequest :: Event.httpPost sampleConv.to_request ::
          ([Event.readLine frameHi, Event.yieldDelta "Hi", Event.readLine frameDone]
            ++ [Event.addAssistant (String.mk "Hi".data)]),
         sampleConv.add_assistant (String.mk "Hi".data), Outcome.ok) := by
  have h : processLines ⟨false, []⟩ [frameHi, frameDone] =
      ([Event.readLine frameHi, Event.yieldDelta "Hi", Event.readLine frameDone],
        ⟨true, "Hi".data⟩, none) := by decide
  exact ⟨h, (complete_commits_once_at_end.1 sampleConv [frameHi, frameDone] _ _ h).1⟩

/-- C8 (amended): a 4xx/5xx response makes `complete` raise a terminal
error to the caller, and the full error body is read (`readBody`, from
`_ = resp.text`) before the raise; no delta is yielded and no assistant
message is appended -- the conversation is returned unchanged.  (The
claim's wider premise, any non-success status, fails: `raise_for_status`
raises only for 4xx/5xx, so a non-200 status outside 400..599 is drained
but not raised, and the loop then parses the drained, cached body -- see
the counterexample theorem.) -/
theorem complete_4xx5xx_raises_after_drain (c : Conversation) (resp : Response)
    (h4 : 400 ≤ resp.status_code) (h6 : resp.status_code < 600) :
    Client.complete c resp =
      ([Event.toRequest, Event.httpPost c.to_request, Event.readBody,
        Event.raiseForStatus resp.status_code], c,
        Outcome.httpError resp.status_code)
    ∧ yieldsOf (Client.complete c resp).1 = []
    ∧ addsOf (Client.complete c resp).1 = [] := by
  have h200 : resp.status_code ≠ 200 := by omega
  have hr : raise_for_status_raises resp.status_code = true := by
    simp only [raise_for_status_raises, Bool.and_eq_true, decide_eq_true_eq]
    omega
  have hmain : Client.complete c resp =
      ([Event.toRequest, Event.httpPost c.to_request, Event.readBody,
        Event.raiseForStatus resp.status_code], c,
        Outcome.httpError resp.status_code) := by
    unfold Client.complete
    rw [if_pos h200, if_pos hr]
    rfl
  refine ⟨hmain, ?_, ?_⟩ <;> rw [hmain] <;>
    simp [yieldsOf, addsOf, List.filterMap_cons]

theorem complete_4xx5xx_raises_after_drain_witness :
    400 ≤ 500 ∧ 500 < 600
    ∧ Client.complete sampleConv ⟨500, [frameHi, frameDone]⟩ =
        ([Event.toRequest, Event.httpPost sampleConv.to_request, Event.readBody,
          Event.raiseForStatus 500], sampleConv, Outcome.httpError 500) := by
  refine ⟨by decide, by decide, ?_⟩
  exact (complete_4xx5xx_raises_after_drain sampleConv ⟨500, [frameHi, frameDone]⟩
    (by decide) (by decide)).1

/-- C8 counterexample: a 304 response is non-success (non-2xx) yet
`complete` does not raise: after draining the body it parses the cached
frames, yields `"Hi"`, and appends the assistant message. -/
theorem status_304_not_raised :
    (Client.complete sampleConv ⟨304, [frameHi, frameDone]⟩).2.2 = Outcome.ok
    ∧ yieldsOf (Client.complete sampleConv ⟨304, [frameHi, frameDone]⟩).1 = ["Hi"]
    ∧ (Client.complete sampleConv ⟨304, [frameHi, frameDone]⟩).2.1
        = sampleConv.add_assistant "Hi" := by
  decide

/-- C9: `complete` computes `to_request` exactly once per run, before any
network I/O: every trace starts with the single `toRequest` event followed
by the post carrying `c.to_request` -- the request built from the
conversation as given when the call begins, so nothing added to the
conversation afterwards can appear in it -- and no later event recomputes
the request. -/
theorem complete_builds_request_first (c : Conversation) (resp : Response) :
    ∃ rest : List Event,
      (Client.complete c resp).1
        = Event.toRequest :: Event.httpPost c.to_request :: rest
      ∧ (rest.all fun e => !e.isToRequest) = true := by
  have hp := processLines_no_toRequest resp.lines ⟨false, []⟩
  unfold Client.complete
  rcases hpl : processLines ⟨false, []⟩ resp.lines with ⟨evs, st, err⟩
  rw [hpl] at hp
  by_cases h200 : resp.status_code ≠ 200
  · rw [if_pos h200]
    by_cases hr : raise_for_status_raises resp.status_code = true
    · rw [if_pos hr]
      exact ⟨[Event.readBody, Event.raiseForStatus resp.status_code], rfl,
        by simp [Event.isToRequest]⟩
    · rw [if_neg hr]
      cases err with
      | some e =>
        refine ⟨Event.readBody :: evs, by simp, ?_⟩
        simpa [Event.isToRequest] using hp
      | none =>
        refine ⟨Event.readBody :: (evs ++ [Event.addAssistant (String.mk st.buf)]),
          by simp, ?_⟩
        simp only [List.all_cons, List.all_append, Bool.and_eq_true]
        exact ⟨rfl, hp, by simp [Event.isToRequest]⟩
  · rw [if_neg h200]
    cases err with
    | some e => exact ⟨evs, by simp, hp⟩
    | none =>
      refine ⟨evs ++ [Event.addAssistant (String.mk st.buf)], by simp, ?_⟩
      simp only [List.all_append, Bool.and_eq_true]
      exact ⟨hp, by simp [Event.isToRequest]⟩

/-- C10 (amended): a status-200 stream that contains no non-whitespace
content delta (including an empty body or an immediate `[DONE]`) and whose
frames raise no uncaught decode exception yields no deltas, yet still
appends an assistant-role message with empty content to the conversation.
(When a frame raises an uncaught exception the append is skipped -- see
the counterexample theorem.) -/
theorem blank_stream_appends_empty (c : Conversation) (lines : List String)
    (hok : (processLines ⟨false, []⟩ lines).2.2 = none)
    (hblank : lines.all blankDeltaOnly = true) :
    yieldsOf (Client.complete c ⟨200, lines⟩).1 = []
    ∧ (Client.complete c ⟨200, lines⟩).2.1 = c.add_assistant ""
    ∧ (Client.complete c ⟨200, lines⟩).2.2 = Outcome.ok := by
  obtain ⟨hy, hs⟩ := processLines_all_blank lines hblank
  rcases hpl : processLines ⟨false, []⟩ lines with ⟨evs, st, err⟩
  rw [hpl] at hok hy hs
  simp only at hok hy hs
  subst hok
  have hst : st = ⟨false, []⟩ := hs
  subst hst
  have hc := complete_200_ok c lines evs ⟨false, []⟩ hpl
  refine ⟨?_, ?_, ?_⟩
  · rw [hc]
    simp [yieldsOf, List.filterMap_cons, List.filterMap_append]
    simpa [yieldsOf] using hy
  · rw [hc]
  · rw [hc]

theorem blank_stream_appends_empty_witness :
    (processLines ⟨false, []⟩ [frameEmptyDelta, frameDone]).2.2 = none
    ∧ ([frameEmptyDelta, frameDone].all blankDeltaOnly) = true
    ∧ yieldsOf (Client.complete sampleConv ⟨200, [frameEmptyDelta, frameDone]⟩).1 = []
    ∧ (Client.complete sampleConv ⟨200, [frameEmptyDelta, frameDone]⟩).2.1
        = sampleConv.add_assistant "" := by
  refine ⟨by decide, by decide, ?_, ?_⟩
  · exact (blank_stream_appends_empty sampleConv [frameEmptyDelta, frameDone]
      (by decide) (by decide)).1
  · exact (blank_stream_appends_empty sampleConv [frameEmptyDelta, frameDone]
      (by decide) (by decide)).2.1

/-- C10 counterexample: a status-200 stream with one malformed frame
contains no non-whitespace content delta, yet `complete` yields nothing
and appends nothing: the conversation comes back unchanged rather than
extended with an empty assistant message. -/
theorem blank_stream_may_not_append :
    ([frameBad].all blankDeltaOnly) = true
    ∧ yieldsOf (Client.complete sampleConv ⟨200, [frameBad]⟩).1 = []
    ∧ (Client.complete sampleConv ⟨200, [frameBad]⟩).2.1 = sampleConv
    ∧ (Client.complete sampleConv ⟨200, [frameBad]⟩).2.1
        ≠ sampleConv.add_assistant "" := by
  decide
